import Mathlib

/-!
Verification of `topological_sorting` from
`fuel_upgrade_system/fuel_upgrade/fuel_upgrade/utils.py`.

The Python function is:

```
def topological_sorting(dep_graph):
    sorted_nodes = []
    graph = deepcopy(dep_graph)
    while graph:
        cyclic = True
        for node, dependencies in sorted(graph.items(), key=lambda n: n[0]):
            for dependency in dependencies:
                if dependency in graph:
                    break
            else:
                cyclic = False
                del graph[node]
                sorted_nodes.append(node)
        if cyclic:
            raise errors.CyclicDependenciesError(...)
    return sorted_nodes
```

We embed the dictionary as an association list `List (Nat × List Nat)`
(node identifier → list of declared prerequisites); a well-formed Python
dict corresponds to a list whose keys are `Nodup`.  Node identifiers are
modelled as naturals, which carry the total order that
`sorted(..., key=lambda n: n[0])` uses.  Raising
`CyclicDependenciesError` with payload `graph` is embedded as
`Except.error graph`.  The `while` loop is embedded with a fuel
parameter; `fuel_suffices` proves that `length + 1` units of fuel always
complete, so `topological_sorting` is a total function.
-/

namespace FuelUtils

/-- A dependency graph: an association list from a node to the list of its
declared prerequisites.  This is the shallow embedding of the Python dict
argument `dep_graph`. -/
abbrev Graph : Type := List (Nat × List Nat)

/-- The keys of the mapping (the nodes of the graph). -/
def keys (g : Graph) : List Nat := g.map Prod.fst

/-- Embedding of the Python membership test `dependency in graph`. -/
def hasKey (g : Graph) (k : Nat) : Bool := g.any (fun e => e.1 == k)

/-- Embedding of `del graph[node]`: drop the entry for key `n`. -/
def removeKey (g : Graph) (n : Nat) : Graph := g.filter (fun e => e.1 != n)

/-- The comparison used by `sorted(graph.items(), key=lambda n: n[0])`:
items are compared by their key. -/
def keyLE (a b : Nat × List Nat) : Prop := a.1 ≤ b.1

instance : DecidableRel keyLE := fun a b => inferInstanceAs (Decidable (a.1 ≤ b.1))

instance : IsTotal (Nat × List Nat) keyLE := ⟨fun a b => Nat.le_total a.1 b.1⟩

instance : IsTrans (Nat × List Nat) keyLE := ⟨fun _ _ _ hab hbc => Nat.le_trans hab hbc⟩

/-- Embedding of `sorted(graph.items(), key=lambda n: n[0])`: the snapshot
of the mapping's items, ordered by ascending key. -/
def sortItems (g : Graph) : Graph := List.insertionSort keyLE g

/-- One elimination pass: the body of the `for node, dependencies in
sorted(graph.items(), ...)` loop.  `items` is the (already sorted)
snapshot taken at the start of the pass; the second argument is the live
mapping, which is mutated (`del graph[node]`) while the snapshot is being
iterated, exactly as in the Python.  Returns the mapping after the pass,
together with the nodes appended to `sorted_nodes` during the pass (in
order).  The pass removed zero nodes (Python's `cyclic` flag stayed
`True`) iff the second component is `[]`. -/
def passRun : List (Nat × List Nat) → Graph → Graph × List Nat
  | [], g => (g, [])
  | (n, deps) :: rest, g =>
    if deps.any (fun d => hasKey g d) then
      passRun rest g
    else
      let r := passRun rest (removeKey g n)
      (r.1, n :: r.2)

/-- The `while graph:` loop, with an explicit fuel bound on the number of
iterations.  `none` means the fuel ran out (this never happens when the
fuel exceeds the number of keys, see `fuel_suffices`);
`some (Except.error e)` embeds `raise CyclicDependenciesError` with the
remaining mapping `e` as payload; `some (Except.ok out)` embeds a normal
return of `sorted_nodes = out`. -/
def topoFuel : Nat → Graph → Option (Except Graph (List Nat))
  | 0, _ => none
  | f + 1, g =>
    if g = [] then
      some (Except.ok [])
    else
      let r := passRun (sortItems g) g
      if r.2 = [] then
        some (Except.error g)
      else
        match topoFuel f r.1 with
        | none => none
        | some (Except.error e) => some (Except.error e)
        | some (Except.ok rest) => some (Except.ok (r.2 ++ rest))

/-- The graph after a pass is the original graph restricted (by a filter)
to the keys that were not emitted during the pass. -/
theorem passRun_fst (items : List (Nat × List Nat)) (g : Graph) :
    (passRun items g).1 = g.filter (fun e => !((passRun items g).2.contains e.1)) := by
  induction items generalizing g with
  | nil => simp [passRun]
  | cons hd rest ih =>
    obtain ⟨n, deps⟩ := hd
    by_cases h : deps.any (fun d => hasKey g d)
    · simp only [passRun, h, if_pos]
      exact ih g
    · simp only [passRun, h, if_neg, Bool.not_eq_true]
      rw [ih (removeKey g n)]
      unfold removeKey
      rw [List.filter_filter]
      apply List.filter_congr
      intro e _
      obtain ⟨k, v⟩ := e
      simp only [List.contains_cons]
      by_cases hen : k = n
      · subst hen; simp
      · rw [Bool.not_or]
        exact Bool.and_comm _ _

/-- A pass never grows the mapping. -/
theorem passRun_fst_length_le (items : List (Nat × List Nat)) (g : Graph) :
    (passRun items g).1.length ≤ g.length := by
  rw [passRun_fst]
  exact List.length_filter_le _ g

/-- If every item of the snapshot is a key of the live mapping and the pass
emitted at least one node, the mapping strictly shrank. -/
theorem passRun_fst_length_lt (items : List (Nat × List Nat)) (g : Graph)
    (hk : ∀ e ∈ items, hasKey g e.1 = true)
    (hne : (passRun items g).2 ≠ []) :
    (passRun items g).1.length < g.length := by
  induction items generalizing g with
  | nil => simp [passRun] at hne
  | cons hd rest ih =>
    obtain ⟨n, deps⟩ := hd
    by_cases h : deps.any (fun d => hasKey g d)
    · simp only [passRun, h, if_pos] at hne ⊢
      exact ih g (fun e he => hk e (List.mem_cons_of_mem _ he)) hne
    · simp only [passRun, h, if_neg, Bool.not_eq_true]
      have hn : hasKey g n = true := hk (n, deps) (List.mem_cons_self _ _)
      have hrem : (removeKey g n).length < g.length := by
        unfold removeKey
        rw [List.length_filter_lt_length_iff_exists]
        unfold hasKey at hn
        rw [List.any_eq_true] at hn
        obtain ⟨e, he, hbe⟩ := hn
        exact ⟨e, he, by simp only [bne_iff_ne, ne_eq, Decidable.not_not]; simpa using hbe⟩
      calc (passRun rest (removeKey g n)).1.length
          ≤ (removeKey g n).length := passRun_fst_length_le rest (removeKey g n)
        _ < g.length := hrem

/-- Every entry of the sorted snapshot is an entry of the graph. -/
theorem mem_sortItems {g : Graph} {e : Nat × List Nat} (h : e ∈ sortItems g) : e ∈ g :=
  (List.perm_insertionSort keyLE g).subset h

/-- Conversely, every entry of the graph appears in the sorted snapshot. -/
theorem mem_sortItems_of_mem {g : Graph} {e : Nat × List Nat} (h : e ∈ g) : e ∈ sortItems g :=
  ((List.perm_insertionSort keyLE g).symm).subset h

/-- Sufficient fuel: whenever the fuel exceeds the number of entries, the
loop completes.  This captures the termination argument: every iteration
of the `while` loop either removes at least one node or raises. -/
theorem fuel_suffices : ∀ (f : Nat) (g : Graph), g.length < f → (topoFuel f g).isSome = true := by
  intro f
  induction f with
  | zero => intro g hg; omega
  | succ f ih =>
    intro g hg
    by_cases hnil : g = []
    · simp [topoFuel, hnil]
    · have hk : ∀ e ∈ sortItems g, hasKey g e.1 = true := by
        intro e he
        have : e ∈ g := mem_sortItems he
        unfold hasKey
        rw [List.any_eq_true]
        exact ⟨e, this, by simp⟩
      simp only [topoFuel, hnil, ite_false]
      by_cases hem : (passRun (sortItems g) g).2 = []
      · simp [hem]
      · have hlt : (passRun (sortItems g) g).1.length < g.length :=
          passRun_fst_length_lt (sortItems g) g hk hem
        have hs : (topoFuel f (passRun (sortItems g) g).1).isSome = true :=
          ih _ (by omega)
        simp only [hem, ite_false]
        rcases ho : topoFuel f (passRun (sortItems g) g).1 with _ | r
        · rw [ho] at hs; simp at hs
        · cases r <;> simp

/-- The embedding of the Python function `topological_sorting`: run the
`while` loop with enough fuel.  `Except.ok out` is the returned
`sorted_nodes`; `Except.error e` is `CyclicDependenciesError` with the
remaining mapping `e`. -/
def topological_sorting (g : Graph) : Except Graph (List Nat) :=
  (topoFuel (g.length + 1) g).get (fuel_suffices (g.length + 1) g (Nat.lt_succ_self _))

/-- The loop with `length + 1` fuel computes exactly `topological_sorting`. -/
theorem topoFuel_eq_sorting (g : Graph) :
    topoFuel (g.length + 1) g = some (topological_sorting g) :=
  (Option.some_get _).symm

/-- `hasKey` decides membership in `keys`. -/
theorem hasKey_iff {g : Graph} {k : Nat} : hasKey g k = true ↔ k ∈ keys g := by
  unfold hasKey keys
  rw [List.any_eq_true]
  constructor
  · rintro ⟨e, he, hb⟩
    exact List.mem_map.mpr ⟨e, he, by simpa using hb⟩
  · intro h
    obtain ⟨e, he, hk⟩ := List.mem_map.mp h
    exact ⟨e, he, by simp [hk]⟩

/-- `hasKey` is `false` exactly off the key set. -/
theorem hasKey_eq_false_iff {g : Graph} {k : Nat} : hasKey g k = false ↔ k ∉ keys g := by
  rw [← hasKey_iff]
  cases h : hasKey g k <;> simp

/-- Removing key `m` first and then filtering away the keys in `l` is the
same as filtering away the keys in `m :: l`. -/
theorem filter_removeKey_comm (g : Graph) (m : Nat) (l : List Nat) :
    (removeKey g m).filter (fun e => !(l.contains e.1)) =
      g.filter (fun e => !((m :: l).contains e.1)) := by
  unfold removeKey
  rw [List.filter_filter]
  apply List.filter_congr
  intro e _
  simp only [List.contains_cons]
  rw [Bool.not_or]
  exact Bool.and_comm _ _

/-- The nodes emitted during a pass are, in order, a sublist of the keys of
the snapshot being iterated. -/
theorem passRun_snd_sublist (items : List (Nat × List Nat)) (g : Graph) :
    (passRun items g).2.Sublist (items.map Prod.fst) := by
  induction items generalizing g with
  | nil => simp [passRun]
  | cons hd rest ih =>
    obtain ⟨n, deps⟩ := hd
    by_cases h : deps.any (fun d => hasKey g d)
    · simp only [passRun, h, if_pos, List.map_cons]
      exact (ih g).trans (List.sublist_cons_self _ _)
    · simp only [passRun, h, if_neg, Bool.not_eq_true, List.map_cons]
      exact List.Sublist.cons₂ _ (ih (removeKey g n))

/-- If every snapshot item still has a prerequisite in the mapping, the pass
removes nothing and emits nothing (Python's `cyclic` stays `True`). -/
theorem passRun_all_blocked (items : List (Nat × List Nat)) (g : Graph)
    (h : ∀ e ∈ items, e.2.any (fun d => hasKey g d) = true) :
    passRun items g = (g, []) := by
  induction items with
  | nil => rfl
  | cons hd rest ih =>
    obtain ⟨n, deps⟩ := hd
    have hh : deps.any (fun d => hasKey g d) = true := h (n, deps) (List.mem_cons_self _ _)
    simp only [passRun, hh, if_pos]
    exact ih (fun e he => h e (List.mem_cons_of_mem _ he))

/-- Conversely, if the pass emitted nothing then the mapping is unchanged
and every snapshot item still has a prerequisite in the mapping. -/
theorem passRun_empty_emit (items : List (Nat × List Nat)) (g : Graph)
    (h : (passRun items g).2 = []) :
    (passRun items g).1 = g ∧ ∀ e ∈ items, e.2.any (fun d => hasKey g d) = true := by
  induction items generalizing g with
  | nil => exact ⟨rfl, by simp⟩
  | cons hd rest ih =>
    obtain ⟨n, deps⟩ := hd
    by_cases hb : deps.any (fun d => hasKey g d)
    · simp only [passRun, hb, if_pos] at h ⊢
      obtain ⟨h1, h2⟩ := ih g h
      refine ⟨h1, ?_⟩
      intro e he
      rcases List.mem_cons.mp he with rfl | he'
      · exact hb
      · exact h2 e he'
    · simp only [passRun, hb, if_neg, Bool.not_eq_true] at h
      exact absurd h (List.cons_ne_nil _ _)

/-- Eligibility certificate for each emitted node: if the emissions of a
pass split as `a ++ n :: b`, then `n` is a snapshot item whose every
prerequisite was absent from the mapping at the moment `n` was removed
(the pass-start mapping minus the previously emitted keys `a`). -/
theorem passRun_emit_split (items : List (Nat × List Nat)) (g : Graph)
    (a : List Nat) (n : Nat) (b : List Nat)
    (h : (passRun items g).2 = a ++ n :: b) :
    ∃ deps, (n, deps) ∈ items ∧
      ∀ d ∈ deps, hasKey (g.filter (fun e => !(a.contains e.1))) d = false := by
  induction items generalizing g a with
  | nil => simp [passRun] at h
  | cons hd rest ih =>
    obtain ⟨m, dm⟩ := hd
    by_cases hb : dm.any (fun d => hasKey g d)
    · simp only [passRun, hb, if_pos] at h
      obtain ⟨deps, hmem, hd⟩ := ih g a h
      exact ⟨deps, List.mem_cons_of_mem _ hmem, hd⟩
    · simp only [passRun, hb, if_neg, Bool.not_eq_true] at h
      cases a with
      | nil =>
        simp only [List.nil_append, List.cons.injEq] at h
        obtain ⟨rfl, _⟩ := h
        refine ⟨dm, List.mem_cons_self _ _, ?_⟩
        intro d hd
        have : (g.filter (fun e => !(List.contains ([] : List Nat) e.1))) = g := by
          simp [List.contains]
        rw [this]
        rw [Bool.not_eq_true] at hb
        rw [List.any_eq_false] at hb
        simpa using hb d hd
      | cons a0 a' =>
        simp only [List.cons_append, List.cons.injEq] at h
        obtain ⟨rfl, h'⟩ := h
        obtain ⟨deps, hmem, hd⟩ := ih (removeKey g m) a' h'
        refine ⟨deps, List.mem_cons_of_mem _ hmem, ?_⟩
        intro d hdd
        rw [← filter_removeKey_comm]
        exact hd d hdd

/-- Membership in the keys of a key-filtered graph. -/
theorem mem_keys_filter {g : Graph} {l : List Nat} {p : Nat} :
    p ∈ keys (g.filter (fun e => !(l.contains e.1))) ↔ p ∈ keys g ∧ p ∉ l := by
  unfold keys
  rw [List.mem_map]
  constructor
  · rintro ⟨e, he, rfl⟩
    rw [List.mem_filter] at he
    refine ⟨List.mem_map.mpr ⟨e, he.1, rfl⟩, ?_⟩
    have := he.2
    simpa using this
  · rintro ⟨hp, hnl⟩
    obtain ⟨e, he, rfl⟩ := List.mem_map.mp hp
    exact ⟨e, List.mem_filter.mpr ⟨he, by simpa using hnl⟩, rfl⟩

/-- A key of the pass-start mapping whose every occurrence is gone from the
mapping filtered by the previously emitted list `a` must occur in `a`. -/
theorem mem_emitted_of_hasKey_false {g : Graph} {a : List Nat} {p : Nat}
    (hp : p ∈ keys g)
    (h : hasKey (g.filter (fun e => !(a.contains e.1))) p = false) : p ∈ a := by
  rw [hasKey_eq_false_iff] at h
  by_contra hna
  exact h (mem_keys_filter.mpr ⟨hp, hna⟩)

/-- In a mapping with `Nodup` keys, the key determines the entry. -/
theorem entry_unique {g : Graph} (hg : (keys g).Nodup) {n : Nat} {d1 d2 : List Nat}
    (h1 : (n, d1) ∈ g) (h2 : (n, d2) ∈ g) : d1 = d2 := by
  induction g with
  | nil => cases h1
  | cons e rest ih =>
    rw [keys, List.map_cons, List.nodup_cons] at hg
    rcases List.mem_cons.mp h1 with rfl | h1'
    · rcases List.mem_cons.mp h2 with h | h2'
      · exact (Prod.ext_iff.mp h).2.symm
      · exact absurd (List.mem_map.mpr ⟨(n, d2), h2', rfl⟩) hg.1
    · rcases List.mem_cons.mp h2 with rfl | h2'
      · exact absurd (List.mem_map.mpr ⟨(n, d1), h1', rfl⟩) hg.1
      · exact ih hg.2 h1' h2'

/-- A key of the graph. -/
theorem mem_keys_of_mem {g : Graph} {n : Nat} {d : List Nat} (h : (n, d) ∈ g) : n ∈ keys g :=
  List.mem_map.mpr ⟨(n, d), h, rfl⟩

/-- The keys of the sorted snapshot are a permutation of the keys. -/
theorem keys_sortItems_perm (g : Graph) : (keys (sortItems g)).Perm (keys g) :=
  (List.perm_insertionSort keyLE g).map Prod.fst

/-- Snapshot keys, in ascending order. -/
theorem keys_sortItems_sorted (g : Graph) : (keys (sortItems g)).Sorted (· ≤ ·) := by
  have h := List.sorted_insertionSort keyLE g
  unfold keys sortItems
  rw [List.Sorted, List.pairwise_map]
  exact h

/-- Emitted nodes of a pass over the sorted snapshot, with `Nodup` keys,
are pairwise strictly ascending: the tie-break between simultaneously
eligible nodes is ascending identifier order. -/
theorem passRun_snd_ascending (g : Graph) (hg : (keys g).Nodup) :
    ((passRun (sortItems g) g).2).Pairwise (· < ·) := by
  have hsub := passRun_snd_sublist (sortItems g) g
  have hnd : (keys (sortItems g)).Nodup := ((keys_sortItems_perm g).nodup_iff).mpr hg
  have hsor := keys_sortItems_sorted g
  have hlt : (keys (sortItems g)).Pairwise (· < ·) := by
    have hne : (keys (sortItems g)).Pairwise (· ≠ ·) := hnd
    have := List.Pairwise.and hsor hne
    exact this.imp (fun h => Nat.lt_of_le_of_ne h.1 h.2)
  exact List.Pairwise.sublist hsub hlt

/-- Emitted nodes are keys of the pass-start mapping. -/
theorem passRun_snd_subset_keys (g : Graph) :
    ∀ k ∈ (passRun (sortItems g) g).2, k ∈ keys g := by
  intro k hk
  have := (passRun_snd_sublist (sortItems g) g).subset hk
  exact (keys_sortItems_perm g).subset this

/-- With `Nodup` keys, the emitted nodes of a pass are `Nodup`. -/
theorem passRun_snd_nodup (g : Graph) (hg : (keys g).Nodup) :
    ((passRun (sortItems g) g).2).Nodup := by
  have hnd : (keys (sortItems g)).Nodup := ((keys_sortItems_perm g).nodup_iff).mpr hg
  exact (passRun_snd_sublist (sortItems g) g).nodup hnd

/-- An entry of the pass-start mapping whose key was not emitted survives
the pass. -/
theorem entry_mem_passRun_fst {items : List (Nat × List Nat)} {g : Graph}
    {n : Nat} {d : List Nat} (h : (n, d) ∈ g) (hn : n ∉ (passRun items g).2) :
    (n, d) ∈ (passRun items g).1 := by
  rw [passRun_fst]
  exact List.mem_filter.mpr ⟨h, by simpa using hn⟩

/-- Key membership in the after-pass mapping. -/
theorem mem_keys_passRun_fst {items : List (Nat × List Nat)} {g : Graph} {k : Nat} :
    k ∈ keys (passRun items g).1 ↔ k ∈ keys g ∧ k ∉ (passRun items g).2 := by
  rw [passRun_fst]
  exact mem_keys_filter

/-- The keys of a pass-result mapping form a sublist of the original keys. -/
theorem keys_passRun_fst_sublist (items : List (Nat × List Nat)) (g : Graph) :
    (keys (passRun items g).1).Sublist (keys g) := by
  rw [passRun_fst]
  exact (List.filter_sublist g).map Prod.fst

/-- Emitted keys followed by the remaining keys are a permutation of the
pass-start keys. -/
theorem passRun_keys_perm (g : Graph) (hg : (keys g).Nodup) :
    ((passRun (sortItems g) g).2 ++ keys (passRun (sortItems g) g).1).Perm (keys g) := by
  set em := (passRun (sortItems g) g).2 with hem
  set K2 := keys (passRun (sortItems g) g).1 with hK2
  have hK2nd : K2.Nodup := (keys_passRun_fst_sublist (sortItems g) g).nodup hg
  have hemnd : em.Nodup := passRun_snd_nodup g hg
  have hdisj : ∀ k ∈ em, k ∉ K2 := by
    intro k hk hk2
    exact (mem_keys_passRun_fst.mp hk2).2 hk
  have hnd : (em ++ K2).Nodup := by
    rw [List.nodup_append]
    exact ⟨hemnd, hK2nd, fun a ha => hdisj a ha⟩
  apply List.perm_of_nodup_nodup_toFinset_eq hnd hg
  ext k
  simp only [List.mem_toFinset, List.mem_append]
  constructor
  · rintro (hk | hk)
    · exact passRun_snd_subset_keys g k hk
    · exact (mem_keys_passRun_fst.mp hk).1
  · intro hk
    by_cases hke : k ∈ em
    · exact Or.inl hke
    · exact Or.inr (mem_keys_passRun_fst.mpr ⟨hk, hke⟩)

/-- Every snapshot item is a key of the pass-start mapping. -/
theorem sortItems_hasKey (g : Graph) : ∀ e ∈ sortItems g, hasKey g e.1 = true := by
  intro e he
  exact hasKey_iff.mpr (mem_keys_of_mem (g := g) (mem_sortItems he))

/-- Master lemma for successful runs: the returned sequence is a
permutation of the keys, and every prerequisite that is itself a key
occurs strictly before the node that declares it. -/
theorem topoFuel_ok : ∀ (f : Nat) (g : Graph) (out : List Nat), g.length < f →
    (keys g).Nodup → topoFuel f g = some (Except.ok out) →
    out.Perm (keys g) ∧
      ∀ n deps p, (n, deps) ∈ g → p ∈ deps → p ∈ keys g →
        List.indexOf p out < List.indexOf n out := by
  intro f
  induction f with
  | zero => intro g out h; omega
  | succ f ih =>
    intro g out hlen hg heq
    by_cases hnil : g = []
    · subst hnil
      simp only [topoFuel, if_pos] at heq
      simp only [Option.some.injEq, Except.ok.injEq] at heq
      subst heq
      exact ⟨List.Perm.refl _, by intro n deps p h; cases h⟩
    · simp only [topoFuel, hnil, ite_false] at heq
      by_cases hem : (passRun (sortItems g) g).2 = []
      · rw [if_pos hem] at heq
        simp at heq
      · rw [if_neg hem] at heq
        rcases ho : topoFuel f (passRun (sortItems g) g).1 with _ | r
        · rw [ho] at heq; simp at heq
        · rw [ho] at heq
          cases r with
          | error e => simp at heq
          | ok rest =>
            simp only [Option.some.injEq, Except.ok.injEq] at heq
            have hlt : (passRun (sortItems g) g).1.length < g.length :=
              passRun_fst_length_lt _ _ (sortItems_hasKey g) hem
            have hnd2 : (keys (passRun (sortItems g) g).1).Nodup :=
              (keys_passRun_fst_sublist _ _).nodup hg
            obtain ⟨hperm, horder⟩ := ih _ rest (by omega) hnd2 ho
            have hemnd : ((passRun (sortItems g) g).2).Nodup := passRun_snd_nodup g hg
            subst heq
            constructor
            · have h1 : ((passRun (sortItems g) g).2 ++ rest).Perm
                  ((passRun (sortItems g) g).2 ++ keys (passRun (sortItems g) g).1) :=
                List.Perm.append_left _ hperm
              exact h1.trans (passRun_keys_perm g hg)
            · intro n deps p hnds hp hpk
              by_cases hnem : n ∈ (passRun (sortItems g) g).2
              · obtain ⟨a, b, hsplit⟩ := List.append_of_mem hnem
                have hna : n ∉ a := by
                  rw [hsplit, List.nodup_append] at hemnd
                  exact fun ha => hemnd.2.2 ha (List.mem_cons_self _ _)
                obtain ⟨deps', hmem', helig⟩ :=
                  passRun_emit_split (sortItems g) g a n b hsplit
                have hdeq : deps' = deps :=
                  entry_unique hg (mem_sortItems hmem') hnds
                subst hdeq
                have hpa : p ∈ a :=
                  mem_emitted_of_hasKey_false hpk (helig p hp)
                rw [hsplit, List.append_assoc, List.cons_append]
                have h1 : List.indexOf p (a ++ n :: (b ++ rest)) = List.indexOf p a :=
                  List.indexOf_append_of_mem hpa
                have h2 : List.indexOf n (a ++ n :: (b ++ rest)) =
                    a.length + List.indexOf n (n :: (b ++ rest)) :=
                  List.indexOf_append_of_not_mem hna
                rw [h1, h2, List.indexOf_cons_self]
                have := List.indexOf_lt_length.mpr hpa
                omega
              · have hnk2 : n ∈ keys (passRun (sortItems g) g).1 :=
                  mem_keys_passRun_fst.mpr ⟨mem_keys_of_mem hnds, hnem⟩
                have hnrest : n ∈ rest := hperm.mem_iff.mpr hnk2
                have h2 : List.indexOf n ((passRun (sortItems g) g).2 ++ rest) =
                    ((passRun (sortItems g) g).2).length + List.indexOf n rest :=
                  List.indexOf_append_of_not_mem hnem
                by_cases hpem : p ∈ (passRun (sortItems g) g).2
                · have h1 : List.indexOf p ((passRun (sortItems g) g).2 ++ rest) =
                      List.indexOf p (passRun (sortItems g) g).2 :=
                    List.indexOf_append_of_mem hpem
                  have := List.indexOf_lt_length.mpr hpem
                  omega
                · have hpk2 : p ∈ keys (passRun (sortItems g) g).1 :=
                    mem_keys_passRun_fst.mpr ⟨hpk, hpem⟩
                  have hmem2 : (n, deps) ∈ (passRun (sortItems g) g).1 :=
                    entry_mem_passRun_fst hnds hnem
                  have hrec := horder n deps p hmem2 hp hpk2
                  have h1 : List.indexOf p ((passRun (sortItems g) g).2 ++ rest) =
                      ((passRun (sortItems g) g).2).length + List.indexOf p rest :=
                    List.indexOf_append_of_not_mem hpem
                  omega

/-- Master lemma for failing runs: the error payload is a non-empty
sub-mapping of the original graph, each of whose members still has at
least one prerequisite among the payload's own keys. -/
theorem topoFuel_error : ∀ (f : Nat) (g e : Graph), g.length < f →
    topoFuel f g = some (Except.error e) →
    e ≠ [] ∧ e.Sublist g ∧ ∀ n d, (n, d) ∈ e → ∃ p ∈ d, p ∈ keys e := by
  intro f
  induction f with
  | zero => intro g e h; omega
  | succ f ih =>
    intro g e hlen heq
    by_cases hnil : g = []
    · subst hnil
      simp only [topoFuel, if_pos] at heq
      simp at heq
    · simp only [topoFuel, hnil, ite_false] at heq
      by_cases hem : (passRun (sortItems g) g).2 = []
      · rw [if_pos hem] at heq
        simp only [Option.some.injEq, Except.error.injEq] at heq
        subst heq
        refine ⟨hnil, List.Sublist.refl _, ?_⟩
        obtain ⟨_, h2⟩ := passRun_empty_emit (sortItems g) g hem
        intro n d hnd
        have := h2 (n, d) (mem_sortItems_of_mem hnd)
        rw [List.any_eq_true] at this
        obtain ⟨p, hp, hkey⟩ := this
        exact ⟨p, hp, hasKey_iff.mp hkey⟩
      · rw [if_neg hem] at heq
        rcases ho : topoFuel f (passRun (sortItems g) g).1 with _ | r
        · rw [ho] at heq; simp at heq
        · rw [ho] at heq
          cases r with
          | ok rest => simp at heq
          | error e2 =>
            simp only [Option.some.injEq, Except.error.injEq] at heq
            subst heq
            have hlt : (passRun (sortItems g) g).1.length < g.length :=
              passRun_fst_length_lt _ _ (sortItems_hasKey g) hem
            obtain ⟨h1, h2, h3⟩ := ih _ e2 (by omega) ho
            refine ⟨h1, h2.trans ?_, h3⟩
            rw [passRun_fst]
            exact List.filter_sublist g

/-- On a stuck mapping (each member keeps a prerequisite among the
mapping's keys), a full elimination pass removes nothing. -/
theorem stuck_pass (e : Graph) (h : ∀ n d, (n, d) ∈ e → ∃ p ∈ d, p ∈ keys e) :
    passRun (sortItems e) e = (e, []) := by
  apply passRun_all_blocked
  intro it hit
  obtain ⟨n, d⟩ := it
  obtain ⟨p, hp, hpk⟩ := h n d (mem_sortItems hit)
  rw [List.any_eq_true]
  exact ⟨p, hp, hasKey_iff.mpr hpk⟩

/-- Prerequisite edge of the graph, restricted to keys: `edgeK g a b` holds
when `b` is a declared prerequisite of the node `a` and `b` is itself a key
of the graph. -/
def edgeK (g : Graph) (a b : Nat) : Prop :=
  (∃ d, (a, d) ∈ g ∧ b ∈ d) ∧ b ∈ keys g

/-- The graph contains a cycle among its keys: a non-empty prerequisite
chain that returns to its starting node. -/
def hasCycle (g : Graph) : Prop :=
  ∃ s c, c ≠ [] ∧ List.Chain (edgeK g) s c ∧ c.getLast? = some s

/-- `L` is a valid total order for the graph: a permutation of the keys in
which every prerequisite that is itself a key occurs strictly before the
node declaring it. -/
def validOrder (g : Graph) (L : List Nat) : Prop :=
  L.Perm (keys g) ∧
    ∀ n d p, (n, d) ∈ g → p ∈ d → p ∈ keys g → List.indexOf p L < List.indexOf n L

/-- A stuck set: a non-empty collection of nodes each of which declares at
least one prerequisite inside the collection itself. -/
def Stuck (g : Graph) (S : List Nat) : Prop :=
  S ≠ [] ∧ ∀ s ∈ S, ∃ d, (s, d) ∈ g ∧ ∃ p ∈ d, p ∈ S

/-- The keys of a failing run's payload form a stuck set of the original
graph. -/
theorem error_keys_stuck {f : Nat} {g e : Graph} (hlen : g.length < f)
    (heq : topoFuel f g = some (Except.error e)) : Stuck g (keys e) := by
  obtain ⟨h1, h2, h3⟩ := topoFuel_error f g e hlen heq
  constructor
  · intro hk
    apply h1
    unfold keys at hk
    exact List.map_eq_nil_iff.mp hk
  · intro s hs
    obtain ⟨⟨n, d⟩, hnd, rfl⟩ := List.mem_map.mp hs
    obtain ⟨p, hp, hpk⟩ := h3 n d hnd
    exact ⟨d, h2.subset hnd, p, hp, hpk⟩

/-- `k` repeated applications of a successor function, as a chain list. -/
def iterChain (F : Nat → Nat) (s : Nat) : Nat → List Nat
  | 0 => []
  | k + 1 => F s :: iterChain F (F s) k

theorem iterChain_length (F : Nat → Nat) : ∀ k s, (iterChain F s k).length = k := by
  intro k
  induction k with
  | zero => intro s; rfl
  | succ k ih => intro s; simp [iterChain, ih]

theorem iterChain_chain {g : Graph} {S : List Nat} (F : Nat → Nat)
    (hF : ∀ s ∈ S, edgeK g s (F s) ∧ F s ∈ S) :
    ∀ k s, s ∈ S → List.Chain (edgeK g) s (iterChain F s k) := by
  intro k
  induction k with
  | zero => intro s _; exact List.Chain.nil
  | succ k ih =>
    intro s hs
    rw [iterChain, List.chain_cons]
    exact ⟨(hF s hs).1, ih (F s) (hF s hs).2⟩

theorem iterChain_getLast (F : Nat → Nat) :
    ∀ k s, 0 < k → (iterChain F s k).getLast? = some (F^[k] s) := by
  intro k
  induction k with
  | zero => intro s h; omega
  | succ k ih =>
    intro s _
    cases k with
    | zero => rfl
    | succ k2 =>
      have h1 : iterChain F s (k2 + 1 + 1) = F s :: iterChain F (F s) (k2 + 1) := rfl
      have h2 : iterChain F (F s) (k2 + 1) = F (F s) :: iterChain F (F (F s)) k2 := rfl
      rw [h1, h2, List.getLast?_cons_cons, ← h2, ih (F s) (Nat.succ_pos _)]
      exact (congrArg some (Function.iterate_succ_apply F (k2 + 1) s)).symm

/-- Pigeonhole extraction: a stuck set yields a genuine cycle among the
graph's keys. -/
theorem stuck_hasCycle {g : Graph} {S : List Nat} (hS : Stuck g S) : hasCycle g := by
  obtain ⟨hne, hstep⟩ := hS
  have hch : ∀ s, s ∈ S → ∃ p, edgeK g s p ∧ p ∈ S := by
    intro s hs
    obtain ⟨d, hd, p, hp, hpS⟩ := hstep s hs
    obtain ⟨d2, hd2, _⟩ := hstep p hpS
    exact ⟨p, ⟨⟨d, hd, hp⟩, mem_keys_of_mem hd2⟩, hpS⟩
  classical
  set F : Nat → Nat := fun s => if h : s ∈ S then (hch s h).choose else s with hFdef
  have hF : ∀ s ∈ S, edgeK g s (F s) ∧ F s ∈ S := by
    intro s hs
    have : F s = (hch s hs).choose := by rw [hFdef]; simp [hs]
    rw [this]
    exact (hch s hs).choose_spec
  obtain ⟨s0, hs0⟩ := List.exists_mem_of_ne_nil S hne
  have hx : ∀ i, F^[i] s0 ∈ S := by
    intro i
    induction i with
    | zero => exact hs0
    | succ i ih =>
      rw [Function.iterate_succ_apply']
      exact (hF _ ih).2
  have hcard : S.toFinset.card < (Finset.range (S.length + 1)).card := by
    rw [Finset.card_range]
    exact Nat.lt_succ_of_le (List.toFinset_card_le S)
  obtain ⟨i, _, j, _, hij, hxy⟩ :=
    Finset.exists_ne_map_eq_of_card_lt_of_maps_to hcard
      (fun i _ => List.mem_toFinset.mpr (hx i))
  rcases Nat.lt_or_ge i j with hlt | hge
  · refine ⟨F^[i] s0, iterChain F (F^[i] s0) (j - i), ?_, ?_, ?_⟩
    · intro hc
      have := iterChain_length F (j - i) (F^[i] s0)
      rw [hc] at this
      simp at this
      omega
    · exact iterChain_chain F hF (j - i) _ (hx i)
    · rw [iterChain_getLast F (j - i) _ (by omega), ← Function.iterate_add_apply]
      have : j - i + i = j := by omega
      rw [this, hxy]
  · have hji : j < i := by omega
    refine ⟨F^[j] s0, iterChain F (F^[j] s0) (i - j), ?_, ?_, ?_⟩
    · intro hc
      have := iterChain_length F (i - j) (F^[j] s0)
      rw [hc] at this
      simp at this
      omega
    · exact iterChain_chain F hF (i - j) _ (hx j)
    · rw [iterChain_getLast F (i - j) _ (by omega), ← Function.iterate_add_apply]
      have : i - j + j = i := by omega
      rw [this, hxy]

/-- Along a prerequisite chain, positions in a valid order strictly
decrease. -/
theorem chain_indexOf_lt {g : Graph} {L : List Nat}
    (horder : ∀ n d p, (n, d) ∈ g → p ∈ d → p ∈ keys g →
      List.indexOf p L < List.indexOf n L) :
    ∀ (c : List Nat) (s t : Nat), c ≠ [] → List.Chain (edgeK g) s c →
      c.getLast? = some t → List.indexOf t L < List.indexOf s L := by
  intro c
  induction c with
  | nil => intro s t hc; exact absurd rfl hc
  | cons a c2 ih =>
    intro s t _ hchain hlast
    rw [List.chain_cons] at hchain
    obtain ⟨⟨⟨d, hd, had⟩, hak⟩, hchain2⟩ := hchain
    have hsa : List.indexOf a L < List.indexOf s L := horder s d a hd had hak
    cases c2 with
    | nil =>
      simp only [List.getLast?_singleton, Option.some.injEq] at hlast
      subst hlast
      exact hsa
    | cons b c3 =>
      rw [List.getLast?_cons_cons] at hlast
      exact Nat.lt_trans (ih a t (List.cons_ne_nil _ _) hchain2 hlast) hsa

/-- A graph with a cycle among its keys admits no valid total order. -/
theorem hasCycle_no_validOrder {g : Graph} (hc : hasCycle g) :
    ¬ ∃ L, validOrder g L := by
  rintro ⟨L, _, horder⟩
  obtain ⟨s, c, hne, hchain, hlast⟩ := hc
  exact Nat.lt_irrefl _ (chain_indexOf_lt horder c s s hne hchain hlast)

/-- The run either returns an order or raises; nothing else. -/
theorem sorting_cases (g : Graph) :
    (∃ out, topological_sorting g = Except.ok out) ∨
      (∃ e, topological_sorting g = Except.error e) := by
  cases h : topological_sorting g with
  | ok out => exact Or.inl ⟨out, rfl⟩
  | error e => exact Or.inr ⟨e, rfl⟩

/-- Successful runs, at the level of `topological_sorting`. -/
theorem sorting_ok_master {g : Graph} {out : List Nat} (hg : (keys g).Nodup)
    (h : topological_sorting g = Except.ok out) :
    out.Perm (keys g) ∧
      ∀ n deps p, (n, deps) ∈ g → p ∈ deps → p ∈ keys g →
        List.indexOf p out < List.indexOf n out := by
  apply topoFuel_ok (g.length + 1) g out (Nat.lt_succ_self _) hg
  rw [topoFuel_eq_sorting, h]

/-- Failing runs, at the level of `topological_sorting`. -/
theorem sorting_error_master {g e : Graph}
    (h : topological_sorting g = Except.error e) :
    e ≠ [] ∧ e.Sublist g ∧ ∀ n d, (n, d) ∈ e → ∃ p ∈ d, p ∈ keys e := by
  apply topoFuel_error (g.length + 1) g e (Nat.lt_succ_self _)
  rw [topoFuel_eq_sorting, h]

/-- A successful run returns a valid total order. -/
theorem sorting_validOrder {g : Graph} {out : List Nat} (hg : (keys g).Nodup)
    (h : topological_sorting g = Except.ok out) : validOrder g out :=
  sorting_ok_master hg h

/-- A failing run exhibits a cycle among the keys. -/
theorem sorting_error_hasCycle {g e : Graph}
    (h : topological_sorting g = Except.error e) : hasCycle g := by
  apply stuck_hasCycle
  apply error_keys_stuck (Nat.lt_succ_self g.length)
  rw [topoFuel_eq_sorting, h]

/-- The run raises exactly on cyclic graphs. -/
theorem sorting_error_iff_hasCycle {g : Graph} (hg : (keys g).Nodup) :
    (∃ e, topological_sorting g = Except.error e) ↔ hasCycle g := by
  constructor
  · rintro ⟨e, he⟩
    exact sorting_error_hasCycle he
  · intro hc
    rcases sorting_cases g with ⟨out, hout⟩ | he
    · exact absurd ⟨out, sorting_validOrder hg hout⟩ (hasCycle_no_validOrder hc)
    · exact he

/-- The run raises exactly when no valid total order exists. -/
theorem sorting_error_iff_no_validOrder {g : Graph} (hg : (keys g).Nodup) :
    (∃ e, topological_sorting g = Except.error e) ↔ ¬ ∃ L, validOrder g L := by
  constructor
  · rintro ⟨e, he⟩
    exact hasCycle_no_validOrder (sorting_error_hasCycle he)
  · intro hno
    rcases sorting_cases g with ⟨out, hout⟩ | he
    · exact absurd ⟨out, sorting_validOrder hg hout⟩ hno
    · exact he

/-- `hasKey` only depends on the mapping's contents, not its order. -/
theorem hasKey_perm {g g' : Graph} (h : g.Perm g') (k : Nat) :
    hasKey g k = hasKey g' k := by
  cases h1 : hasKey g' k
  · rw [hasKey_eq_false_iff] at h1 ⊢
    intro hk
    exact h1 ((h.map Prod.fst).subset hk)
  · rw [hasKey_iff] at h1 ⊢
    exact ((h.map Prod.fst).symm).subset h1

/-- A pass over the same snapshot of two mappings with the same contents
emits the same nodes and leaves mappings with the same contents. -/
theorem passRun_perm (items : List (Nat × List Nat)) {g g' : Graph} (h : g.Perm g') :
    (passRun items g).2 = (passRun items g').2 ∧
      (passRun items g).1.Perm (passRun items g').1 := by
  induction items generalizing g g' with
  | nil => exact ⟨rfl, h⟩
  | cons hd rest ih =>
    obtain ⟨n, deps⟩ := hd
    have hcond : (deps.any fun d => hasKey g d) = (deps.any fun d => hasKey g' d) := by
      have : (fun d => hasKey g d) = (fun d => hasKey g' d) :=
        funext (fun d => hasKey_perm h d)
      rw [this]
    by_cases hb : deps.any (fun d => hasKey g d)
    · simp only [passRun, hb, ← hcond, if_pos]
      exact ih h
    · simp only [passRun, hb, ← hcond, if_neg, Bool.not_eq_true]
      have hrm : (removeKey g n).Perm (removeKey g' n) := h.filter _
      obtain ⟨h1, h2⟩ := ih hrm
      exact ⟨by rw [h1], h2⟩

/-- Two sorted association lists with the same contents and duplicate-free
keys are equal. -/
theorem sorted_keys_unique : ∀ (l1 l2 : Graph), l1.Perm l2 → l1.Sorted keyLE →
    l2.Sorted keyLE → (keys l1).Nodup → l1 = l2 := by
  intro l1
  induction l1 with
  | nil =>
    intro l2 hp _ _ _
    exact hp.nil_eq
  | cons a t ih =>
    intro l2 hp hs1 hs2 hnd
    cases l2 with
    | nil => exact absurd hp.symm.nil_eq (by simp)
    | cons b t2 =>
      have ha2 : a ∈ b :: t2 := hp.subset (List.mem_cons_self _ _)
      have hb1 : b ∈ a :: t := hp.symm.subset (List.mem_cons_self _ _)
      by_cases heq : a = b
      · subst heq
        have htp : t.Perm t2 := hp.cons_inv
        have := ih t2 htp (List.sorted_cons.mp hs1).2 (List.sorted_cons.mp hs2).2
          (by rw [keys, List.map_cons, List.nodup_cons] at hnd; exact hnd.2)
        rw [this]
      · have hat2 : a ∈ t2 := (List.mem_cons.mp ha2).resolve_left heq
        have hbt : b ∈ t := (List.mem_cons.mp hb1).resolve_left (fun hh => heq hh.symm)
        have h1 : keyLE a b := (List.sorted_cons.mp hs1).1 b hbt
        have h2 : keyLE b a := (List.sorted_cons.mp hs2).1 a hat2
        have hkeq : a.1 = b.1 := Nat.le_antisymm h1 h2
        rw [keys, List.map_cons, List.nodup_cons] at hnd
        exact absurd (List.mem_map.mpr ⟨b, hbt, hkeq.symm⟩) hnd.1

/-- With duplicate-free keys, the sorted snapshot depends only on the
mapping's contents: `sorted(graph.items(), ...)` is order-insensitive. -/
theorem sortItems_eq_of_perm {g g' : Graph} (hg : (keys g).Nodup) (h : g.Perm g') :
    sortItems g = sortItems g' := by
  apply sorted_keys_unique
  · exact (List.perm_insertionSort keyLE g).trans (h.trans (List.perm_insertionSort keyLE g').symm)
  · exact List.sorted_insertionSort keyLE g
  · exact List.sorted_insertionSort keyLE g'
  · exact ((keys_sortItems_perm g).nodup_iff).mpr hg

/-- Relation between two run results: equal orders on success, same
contents of the payload on failure. -/
def resultPerm : Option (Except Graph (List Nat)) → Option (Except Graph (List Nat)) → Prop
  | none, none => True
  | some (Except.ok o1), some (Except.ok o2) => o1 = o2
  | some (Except.error e1), some (Except.error e2) => e1.Perm e2
  | _, _ => False

/-- The loop is insensitive to the internal ordering of the mapping: two
mappings with the same contents produce the same order, or payloads with
the same contents. -/
theorem topoFuel_perm : ∀ (f : Nat) (g g' : Graph), (keys g).Nodup → g.Perm g' →
    resultPerm (topoFuel f g) (topoFuel f g') := by
  intro f
  induction f with
  | zero => intro g g' _ _; trivial
  | succ f ih =>
    intro g g' hg h
    by_cases hnil : g = []
    · subst hnil
      have : g' = [] := h.nil_eq.symm
      subst this
      simp only [topoFuel, if_pos]
      trivial
    · have hnil' : g' ≠ [] := by
        intro hc
        subst hc
        exact hnil h.symm.nil_eq.symm
      have hitems : sortItems g = sortItems g' := sortItems_eq_of_perm hg h
      obtain ⟨hsnd, hfst⟩ := passRun_perm (sortItems g) h
      simp only [topoFuel, hnil, hnil', ite_false]
      rw [← hitems]
      by_cases hem : (passRun (sortItems g) g).2 = []
      · rw [if_pos hem, if_pos (by rw [← hsnd]; exact hem)]
        exact h
      · rw [if_neg hem, if_neg (by rw [← hsnd]; exact hem)]
        have hg2 : (keys (passRun (sortItems g) g).1).Nodup :=
          (keys_passRun_fst_sublist _ _).nodup hg
        have hrec := ih (passRun (sortItems g) g).1 (passRun (sortItems g) g').1 hg2 hfst
        rcases h1 : topoFuel f (passRun (sortItems g) g).1 with _ | r1 <;>
          rcases h2 : topoFuel f (passRun (sortItems g) g').1 with _ | r2 <;>
            rw [h1, h2] at hrec
        · trivial
        · cases r2 <;> exact absurd hrec (by simp [resultPerm])
        · cases r1 <;> exact absurd hrec (by simp [resultPerm])
        · cases r1 <;> cases r2
          · exact hrec
          · exact absurd hrec (by simp [resultPerm])
          · exact absurd hrec (by simp [resultPerm])
          · simp only [resultPerm] at hrec
            rw [hsnd, hrec]
            exact rfl

/-- Keys of the mapping with `n` removed. -/
theorem mem_keys_removeKey {g : Graph} {n k : Nat} :
    k ∈ keys (removeKey g n) ↔ k ∈ keys g ∧ k ≠ n := by
  unfold removeKey keys
  rw [List.mem_map]
  constructor
  · rintro ⟨e, he, rfl⟩
    rw [List.mem_filter] at he
    exact ⟨List.mem_map.mpr ⟨e, he.1, rfl⟩, by simpa using he.2⟩
  · rintro ⟨hk, hne⟩
    obtain ⟨e, he, rfl⟩ := List.mem_map.mp hk
    exact ⟨e, List.mem_filter.mpr ⟨he, by simpa using hne⟩, rfl⟩

/-- During a pass, no member of a stuck set is ever emitted: each still has
a prerequisite inside the stuck set, which is itself still present. -/
theorem passRun_stuck_not_emitted :
    ∀ (items : List (Nat × List Nat)) (cur : Graph) (S : List Nat),
      (keys cur).Nodup →
      (∀ e ∈ items, e.1 ∈ keys cur → e ∈ cur) →
      (∀ s ∈ S, ∃ d, (s, d) ∈ cur ∧ ∃ p ∈ d, p ∈ S) →
      (∀ s ∈ S, s ∈ keys cur) →
      ∀ s ∈ S, s ∉ (passRun items cur).2 := by
  intro items
  induction items with
  | nil => intro cur S _ _ _ _ s _ hc; simp [passRun] at hc
  | cons hd rest ih =>
    intro cur S hnd hcompat hstuck hSk s hs
    obtain ⟨n, dn⟩ := hd
    by_cases hb : dn.any (fun d => hasKey cur d)
    · simp only [passRun, hb, if_pos]
      exact ih cur S hnd (fun e he => hcompat e (List.mem_cons_of_mem _ he)) hstuck hSk s hs
    · by_cases hnS : n ∈ S
      · exfalso
        obtain ⟨d, hdcur, p, hpd, hpS⟩ := hstuck n hnS
        have hncur : (n, dn) ∈ cur := hcompat (n, dn) (List.mem_cons_self _ _) (hSk n hnS)
        have hdeq : d = dn := entry_unique hnd hdcur hncur
        subst hdeq
        apply hb
        rw [List.any_eq_true]
        exact ⟨p, hpd, hasKey_iff.mpr (hSk p hpS)⟩
      · simp only [passRun, hb, if_neg, Bool.not_eq_true, List.mem_cons]
        push_neg
        refine ⟨fun hc => hnS (hc ▸ hs), ?_⟩
        have hnd2 : (keys (removeKey cur n)).Nodup := by
          unfold removeKey keys
          exact ((List.filter_sublist cur).map Prod.fst).nodup hnd
        have hcompat2 : ∀ e ∈ rest, e.1 ∈ keys (removeKey cur n) → e ∈ removeKey cur n := by
          intro e he hek
          obtain ⟨hek1, hek2⟩ := mem_keys_removeKey.mp hek
          have := hcompat e (List.mem_cons_of_mem _ he) hek1
          unfold removeKey
          rw [List.mem_filter]
          exact ⟨this, by simpa using hek2⟩
        have hstuck2 : ∀ t ∈ S, ∃ d, (t, d) ∈ removeKey cur n ∧ ∃ p ∈ d, p ∈ S := by
          intro t ht
          obtain ⟨d, hdcur, p, hpd, hpS⟩ := hstuck t ht
          refine ⟨d, ?_, p, hpd, hpS⟩
          unfold removeKey
          rw [List.mem_filter]
          refine ⟨hdcur, ?_⟩
          have : t ≠ n := fun hc => hnS (hc ▸ ht)
          simpa using this
        have hSk2 : ∀ t ∈ S, t ∈ keys (removeKey cur n) := by
          intro t ht
          exact mem_keys_removeKey.mpr ⟨hSk t ht, fun hc => hnS (hc ▸ ht)⟩
        exact ih (removeKey cur n) S hnd2 hcompat2 hstuck2 hSk2 s hs

/-- Across the whole run, a stuck set survives: it reaches the error
payload intact, and success is impossible. -/
theorem topoFuel_stuck : ∀ (f : Nat) (g : Graph) (S : List Nat), (keys g).Nodup →
    Stuck g S →
    (∀ e, topoFuel f g = some (Except.error e) → ∀ s ∈ S, s ∈ keys e) ∧
      (∀ out, topoFuel f g ≠ some (Except.ok out)) := by
  intro f
  induction f with
  | zero =>
    intro g S _ _
    exact ⟨fun e he => by simp [topoFuel] at he, fun out he => by simp [topoFuel] at he⟩
  | succ f ih =>
    intro g S hg hS
    obtain ⟨hne, hstep⟩ := hS
    obtain ⟨s0, hs0⟩ := List.exists_mem_of_ne_nil S hne
    have hSkeys : ∀ s ∈ S, s ∈ keys g := by
      intro s hs
      obtain ⟨d, hd, _⟩ := hstep s hs
      exact mem_keys_of_mem hd
    have hnil : g ≠ [] := by
      intro hc
      subst hc
      exact absurd (hSkeys s0 hs0) (by simp [keys])
    have hnotem : ∀ s ∈ S, s ∉ (passRun (sortItems g) g).2 :=
      passRun_stuck_not_emitted (sortItems g) g S hg
        (fun e he _ => mem_sortItems he) hstep hSkeys
    by_cases hem : (passRun (sortItems g) g).2 = []
    · constructor
      · intro e he
        simp only [topoFuel, hnil, ite_false] at he
        rw [if_pos hem] at he
        simp only [Option.some.injEq, Except.error.injEq] at he
        subst he
        exact hSkeys
      · intro out he
        simp only [topoFuel, hnil, ite_false] at he
        rw [if_pos hem] at he
        simp at he
    · have hg2 : (keys (passRun (sortItems g) g).1).Nodup :=
        (keys_passRun_fst_sublist _ _).nodup hg
      have hstuck2 : Stuck (passRun (sortItems g) g).1 S := by
        refine ⟨hne, ?_⟩
        intro s hs
        obtain ⟨d, hd, p, hpd, hpS⟩ := hstep s hs
        exact ⟨d, entry_mem_passRun_fst hd (hnotem s hs), p, hpd, hpS⟩
      obtain ⟨ih1, ih2⟩ := ih (passRun (sortItems g) g).1 S hg2 hstuck2
      constructor
      · intro e he
        simp only [topoFuel, hnil, ite_false] at he
        rw [if_neg hem] at he
        rcases ho : topoFuel f (passRun (sortItems g) g).1 with _ | r
        · rw [ho] at he; simp at he
        · rw [ho] at he
          cases r with
          | ok rest => simp at he
          | error e2 =>
            simp only [Option.some.injEq, Except.error.injEq] at he
            subst he
            exact ih1 e2 ho
      · intro out he
        simp only [topoFuel, hnil, ite_false] at he
        rw [if_neg hem] at he
        rcases ho : topoFuel f (passRun (sortItems g) g).1 with _ | r
        · rw [ho] at he; simp at he
        · rw [ho] at he
          cases r with
          | error e2 => simp at he
          | ok rest =>
            simp only [Option.some.injEq, Except.ok.injEq] at he
            exact ih2 rest ho

/-- Modelled from the spec (design note on full-pass rescanning): a node is
eligible in a pass when every one of its prerequisites is absent from the
stable pass-start mapping. -/
def eligible (g : Graph) (e : Nat × List Nat) : Bool := e.2.all (fun d => !(hasKey g d))

/-- Modelled from the spec: a double-buffered elimination pass.  Every
node's eligibility is evaluated against the stable set of keys remaining
at the start of the pass, eligible nodes are emitted in ascending key
order, and all removals are applied only after eligibility has been
evaluated. -/
def specPass (g : Graph) : Graph × List Nat :=
  (g.filter (fun e => !(eligible g e)),
    ((sortItems g).filter (fun e => eligible g e)).map Prod.fst)

/-- Modelled from the spec: the fixed-point loop over double-buffered
passes, with the same outcome shapes as `topoFuel`. -/
def specFuel : Nat → Graph → Option (Except Graph (List Nat))
  | 0, _ => none
  | f + 1, g =>
    if g = [] then
      some (Except.ok [])
    else
      let r := specPass g
      if r.2 = [] then
        some (Except.error g)
      else
        match specFuel f r.1 with
        | none => none
        | some (Except.error e) => some (Except.error e)
        | some (Except.ok rest) => some (Except.ok (r.2 ++ rest))

/-- A double-buffered pass emits nothing exactly when no entry is
eligible. -/
theorem specPass_snd_empty_iff {g : Graph} :
    (specPass g).2 = [] ↔ ∀ e ∈ g, eligible g e = false := by
  unfold specPass
  rw [List.map_eq_nil_iff, List.filter_eq_nil_iff]
  constructor
  · intro h e he
    have := h e (mem_sortItems_of_mem he)
    simpa using this
  · intro h e he
    simp [h e (mem_sortItems he)]

/-- An emitting double-buffered pass strictly shrinks the mapping. -/
theorem specPass_length_lt {g : Graph} (h : (specPass g).2 ≠ []) :
    (specPass g).1.length < g.length := by
  unfold specPass
  rw [List.length_filter_lt_length_iff_exists]
  by_contra hc
  push_neg at hc
  apply h
  rw [specPass_snd_empty_iff]
  intro e he
  have := hc e he
  simpa using this

/-- Fuel sufficiency for the double-buffered loop. -/
theorem specFuel_suffices : ∀ (f : Nat) (g : Graph), g.length < f →
    (specFuel f g).isSome = true := by
  intro f
  induction f with
  | zero => intro g hg; omega
  | succ f ih =>
    intro g hg
    by_cases hnil : g = []
    · simp [specFuel, hnil]
    · simp only [specFuel, hnil, ite_false]
      by_cases hem : (specPass g).2 = []
      · simp [hem]
      · have hlt := specPass_length_lt hem
        have hs : (specFuel f (specPass g).1).isSome = true := ih _ (by omega)
        simp only [hem, ite_false]
        rcases ho : specFuel f (specPass g).1 with _ | r
        · rw [ho] at hs; simp at hs
        · cases r <;> simp

/-- Modelled from the spec: the double-buffered variant of the sorter. -/
def spec_sort (g : Graph) : Except Graph (List Nat) :=
  (specFuel (g.length + 1) g).get (specFuel_suffices (g.length + 1) g (Nat.lt_succ_self _))

theorem specFuel_eq_spec_sort (g : Graph) :
    specFuel (g.length + 1) g = some (spec_sort g) :=
  (Option.some_get _).symm

/-- Emission characterization for a double-buffered pass. -/
theorem mem_specPass_snd {g : Graph} {k : Nat} :
    k ∈ (specPass g).2 ↔ ∃ d, (k, d) ∈ g ∧ eligible g (k, d) = true := by
  unfold specPass
  rw [List.mem_map]
  constructor
  · rintro ⟨e, he, rfl⟩
    rw [List.mem_filter] at he
    exact ⟨e.2, mem_sortItems he.1, he.2⟩
  · rintro ⟨d, hd, helig⟩
    exact ⟨(k, d), List.mem_filter.mpr ⟨mem_sortItems_of_mem hd, helig⟩, rfl⟩

/-- Key characterization for the mapping left by a double-buffered pass. -/
theorem mem_keys_specPass_fst {g : Graph} {k : Nat} :
    k ∈ keys (specPass g).1 ↔ ∃ d, (k, d) ∈ g ∧ eligible g (k, d) = false := by
  unfold specPass keys
  rw [List.mem_map]
  constructor
  · rintro ⟨e, he, rfl⟩
    rw [List.mem_filter] at he
    exact ⟨e.2, he.1, by simpa using he.2⟩
  · rintro ⟨d, hd, helig⟩
    exact ⟨(k, d), List.mem_filter.mpr ⟨hd, by simp [helig]⟩, rfl⟩

/-- The double-buffered pass leaves a sub-mapping. -/
theorem specPass_fst_sublist (g : Graph) : ((specPass g).1).Sublist g :=
  List.filter_sublist g

/-- Emitted nodes of a double-buffered pass are `Nodup` when the keys
are. -/
theorem specPass_snd_nodup {g : Graph} (hg : (keys g).Nodup) :
    ((specPass g).2).Nodup := by
  have h1 : ((specPass g).2).Sublist (keys (sortItems g)) := by
    unfold specPass keys
    exact (List.filter_sublist (sortItems g)).map Prod.fst
  exact h1.nodup (((keys_sortItems_perm g).nodup_iff).mpr hg)

/-- Emitted and remaining keys of a double-buffered pass partition the
pass-start keys. -/
theorem specPass_keys_perm (g : Graph) (hg : (keys g).Nodup) :
    ((specPass g).2 ++ keys (specPass g).1).Perm (keys g) := by
  have hk2nd : (keys (specPass g).1).Nodup := ((specPass_fst_sublist g).map Prod.fst).nodup hg
  have hemnd := specPass_snd_nodup hg
  have hdisj : ∀ k ∈ (specPass g).2, k ∉ keys (specPass g).1 := by
    intro k hk hk2
    obtain ⟨d1, hd1, he1⟩ := mem_specPass_snd.mp hk
    obtain ⟨d2, hd2, he2⟩ := mem_keys_specPass_fst.mp hk2
    rw [entry_unique hg hd1 hd2] at he1
    rw [he1] at he2
    cases he2
  have hnd : ((specPass g).2 ++ keys (specPass g).1).Nodup := by
    rw [List.nodup_append]
    exact ⟨hemnd, hk2nd, fun a ha => hdisj a ha⟩
  apply List.perm_of_nodup_nodup_toFinset_eq hnd hg
  ext k
  simp only [List.mem_toFinset, List.mem_append]
  constructor
  · rintro (hk | hk)
    · obtain ⟨d, hd, _⟩ := mem_specPass_snd.mp hk
      exact mem_keys_of_mem hd
    · obtain ⟨d, hd, _⟩ := mem_keys_specPass_fst.mp hk
      exact mem_keys_of_mem hd
  · intro hk
    obtain ⟨⟨k2, d⟩, hd, rfl⟩ := List.mem_map.mp hk
    cases he : eligible g (k2, d) with
    | true => exact Or.inl (mem_specPass_snd.mpr ⟨d, hd, he⟩)
    | false => exact Or.inr (mem_keys_specPass_fst.mpr ⟨d, hd, he⟩)

/-- Success of the double-buffered loop: the output is a permutation of
the keys. -/
theorem specFuel_ok_perm : ∀ (f : Nat) (g : Graph) (out : List Nat), g.length < f →
    (keys g).Nodup → specFuel f g = some (Except.ok out) → out.Perm (keys g) := by
  intro f
  induction f with
  | zero => intro g out h; omega
  | succ f ih =>
    intro g out hlen hg heq
    by_cases hnil : g = []
    · subst hnil
      simp only [specFuel, if_pos] at heq
      simp only [Option.some.injEq, Except.ok.injEq] at heq
      subst heq
      exact List.Perm.refl _
    · simp only [specFuel, hnil, ite_false] at heq
      by_cases hem : (specPass g).2 = []
      · rw [if_pos hem] at heq
        simp at heq
      · rw [if_neg hem] at heq
        rcases ho : specFuel f (specPass g).1 with _ | r
        · rw [ho] at heq; simp at heq
        · rw [ho] at heq
          cases r with
          | error e => simp at heq
          | ok rest =>
            simp only [Option.some.injEq, Except.ok.injEq] at heq
            subst heq
            have hlt := specPass_length_lt hem
            have hnd2 : (keys (specPass g).1).Nodup :=
              ((specPass_fst_sublist g).map Prod.fst).nodup hg
            have hperm := ih _ rest (by omega) hnd2 ho
            exact (List.Perm.append_left _ hperm).trans (specPass_keys_perm g hg)

/-- Failure of the double-buffered loop: same payload shape as the
original loop. -/
theorem specFuel_error : ∀ (f : Nat) (g e : Graph), g.length < f →
    specFuel f g = some (Except.error e) →
    e ≠ [] ∧ e.Sublist g ∧ ∀ n d, (n, d) ∈ e → ∃ p ∈ d, p ∈ keys e := by
  intro f
  induction f with
  | zero => intro g e h; omega
  | succ f ih =>
    intro g e hlen heq
    by_cases hnil : g = []
    · subst hnil
      simp only [specFuel, if_pos] at heq
      simp at heq
    · simp only [specFuel, hnil, ite_false] at heq
      by_cases hem : (specPass g).2 = []
      · rw [if_pos hem] at heq
        simp only [Option.some.injEq, Except.error.injEq] at heq
        subst heq
        refine ⟨hnil, List.Sublist.refl _, ?_⟩
        intro n d hnd
        have helig : eligible g (n, d) = false := specPass_snd_empty_iff.mp hem (n, d) hnd
        unfold eligible at helig
        rw [List.all_eq_false] at helig
        obtain ⟨p, hp, hps⟩ := helig
        have hkey : hasKey g p = true := by
          cases hq : hasKey g p
          · rw [hq] at hps; simp at hps
          · rfl
        exact ⟨p, hp, hasKey_iff.mp hkey⟩
      · rw [if_neg hem] at heq
        rcases ho : specFuel f (specPass g).1 with _ | r
        · rw [ho] at heq; simp at heq
        · rw [ho] at heq
          cases r with
          | ok rest => simp at heq
          | error e2 =>
            simp only [Option.some.injEq, Except.error.injEq] at heq
            subst heq
            have hlt := specPass_length_lt hem
            obtain ⟨h1, h2, h3⟩ := ih _ e2 (by omega) ho
            exact ⟨h1, h2.trans (specPass_fst_sublist g), h3⟩

/-- A stuck set survives a double-buffered run: it reaches the payload
intact, and success is impossible. -/
theorem specFuel_stuck : ∀ (f : Nat) (g : Graph) (S : List Nat), (keys g).Nodup →
    Stuck g S →
    (∀ e, specFuel f g = some (Except.error e) → ∀ s ∈ S, s ∈ keys e) ∧
      (∀ out, specFuel f g ≠ some (Except.ok out)) := by
  intro f
  induction f with
  | zero =>
    intro g S _ _
    exact ⟨fun e he => by simp [specFuel] at he, fun out he => by simp [specFuel] at he⟩
  | succ f ih =>
    intro g S hg hS
    obtain ⟨hne, hstep⟩ := hS
    obtain ⟨s0, hs0⟩ := List.exists_mem_of_ne_nil S hne
    have hSkeys : ∀ s ∈ S, s ∈ keys g := by
      intro s hs
      obtain ⟨d, hd, _⟩ := hstep s hs
      exact mem_keys_of_mem hd
    have hnil : g ≠ [] := by
      intro hc
      subst hc
      exact absurd (hSkeys s0 hs0) (by simp [keys])
    have hnotem : ∀ s ∈ S, s ∉ (specPass g).2 := by
      intro s hs hc
      obtain ⟨d1, hd1, he1⟩ := mem_specPass_snd.mp hc
      obtain ⟨d2, hd2, p, hpd, hpS⟩ := hstep s hs
      rw [entry_unique hg hd1 hd2] at he1
      unfold eligible at he1
      rw [List.all_eq_true] at he1
      have := he1 p hpd
      rw [Bool.not_eq_true'] at this
      exact (hasKey_eq_false_iff.mp this) (hSkeys p hpS)
    have hSk2 : ∀ s ∈ S, s ∈ keys (specPass g).1 := by
      intro s hs
      obtain ⟨d, hd, p, hpd, hpS⟩ := hstep s hs
      cases he : eligible g (s, d) with
      | true => exact absurd (mem_specPass_snd.mpr ⟨d, hd, he⟩) (hnotem s hs)
      | false => exact mem_keys_specPass_fst.mpr ⟨d, hd, he⟩
    by_cases hem : (specPass g).2 = []
    · constructor
      · intro e he
        simp only [specFuel, hnil, ite_false] at he
        rw [if_pos hem] at he
        simp only [Option.some.injEq, Except.error.injEq] at he
        subst he
        exact hSkeys
      · intro out he
        simp only [specFuel, hnil, ite_false] at he
        rw [if_pos hem] at he
        simp at he
    · have hg2 : (keys (specPass g).1).Nodup :=
        ((specPass_fst_sublist g).map Prod.fst).nodup hg
      have hstuck2 : Stuck (specPass g).1 S := by
        refine ⟨hne, ?_⟩
        intro s hs
        obtain ⟨d, hd, p, hpd, hpS⟩ := hstep s hs
        obtain ⟨d2, hd2, he2⟩ := mem_keys_specPass_fst.mp (hSk2 s hs)
        have hdeq : d2 = d := entry_unique hg hd2 hd
        subst hdeq
        refine ⟨d2, ?_, p, hpd, hpS⟩
        unfold specPass
        rw [List.mem_filter]
        exact ⟨hd2, by simp [he2]⟩
      obtain ⟨ih1, ih2⟩ := ih (specPass g).1 S hg2 hstuck2
      constructor
      · intro e he
        simp only [specFuel, hnil, ite_false] at he
        rw [if_neg hem] at he
        rcases ho : specFuel f (specPass g).1 with _ | r
        · rw [ho] at he; simp at he
        · rw [ho] at he
          cases r with
          | ok rest => simp at he
          | error e2 =>
            simp only [Option.some.injEq, Except.error.injEq] at he
            subst he
            exact ih1 e2 ho
      · intro out he
        simp only [specFuel, hnil, ite_false] at he
        rw [if_neg hem] at he
        rcases ho : specFuel f (specPass g).1 with _ | r
        · rw [ho] at he; simp at he
        · rw [ho] at he
          cases r with
          | error e2 => simp at he
          | ok rest =>
            simp only [Option.some.injEq, Except.ok.injEq] at he
            exact ih2 rest ho

/-- A sub-mapping of a `Nodup`-keyed mapping is the restriction of the
mapping to the sub-mapping's own keys. -/
theorem sublist_eq_filter : ∀ {l g : Graph}, l.Sublist g → (keys g).Nodup →
    l = g.filter (fun e => decide (e.1 ∈ keys l)) := by
  intro l g h
  induction h with
  | slnil => intro _; rfl
  | @cons l1 l2 x h ih =>
    intro hnd
    rw [keys, List.map_cons, List.nodup_cons] at hnd
    rw [List.filter_cons]
    have hpx : (decide (x.1 ∈ keys l1)) = false := by
      rw [decide_eq_false_iff_not]
      intro hc
      obtain ⟨e, he, hek⟩ := List.mem_map.mp hc
      exact hnd.1 (List.mem_map.mpr ⟨e, h.subset he, hek⟩)
    rw [hpx]
    simp only [Bool.false_eq_true, ite_false]
    exact ih hnd.2
  | @cons₂ l1 l2 x h ih =>
    intro hnd
    rw [keys, List.map_cons, List.nodup_cons] at hnd
    rw [List.filter_cons]
    have hpx : (decide (x.1 ∈ keys (x :: l1))) = true := by
      rw [decide_eq_true_iff]
      exact List.mem_map.mpr ⟨x, List.mem_cons_self _ _, rfl⟩
    rw [hpx]
    simp only [ite_true]
    have hcong : ∀ e ∈ l2, (decide (e.1 ∈ keys (x :: l1))) = (decide (e.1 ∈ keys l1)) := by
      intro e he
      apply decide_eq_decide.mpr
      constructor
      · intro hk
        have hk2 : e.1 ∈ x.1 :: keys l1 := by
          rw [keys, List.map_cons] at hk
          exact hk
        rcases List.mem_cons.mp hk2 with hx | hl
        · exact absurd (List.mem_map.mpr ⟨e, he, rfl⟩) (hx ▸ hnd.1)
        · exact hl
      · intro hk
        rw [keys, List.map_cons]
        exact List.mem_cons_of_mem _ hk
    rw [List.filter_congr hcong]
    exact congrArg (x :: ·) (ih hnd.2)

/-- Two sub-mappings of a `Nodup`-keyed mapping with the same key set are
equal. -/
theorem sublist_eq_of_keys_eq {g e1 e2 : Graph} (hg : (keys g).Nodup)
    (h1 : e1.Sublist g) (h2 : e2.Sublist g)
    (hk : ∀ k, k ∈ keys e1 ↔ k ∈ keys e2) : e1 = e2 := by
  rw [sublist_eq_filter h1 hg, sublist_eq_filter h2 hg]
  apply List.filter_congr
  intro e _
  exact decide_eq_decide.mpr (hk e.1)

/-- The double-buffered variant either returns an order or raises. -/
theorem spec_sort_cases (g : Graph) :
    (∃ out, spec_sort g = Except.ok out) ∨ (∃ e, spec_sort g = Except.error e) := by
  cases h : spec_sort g with
  | ok out => exact Or.inl ⟨out, rfl⟩
  | error e => exact Or.inr ⟨e, rfl⟩

/-- A failing double-buffered run's payload keys form a stuck set. -/
theorem spec_error_keys_stuck {f : Nat} {g e : Graph} (hlen : g.length < f)
    (heq : specFuel f g = some (Except.error e)) : Stuck g (keys e) := by
  obtain ⟨h1, h2, h3⟩ := specFuel_error f g e hlen heq
  constructor
  · intro hkk
    apply h1
    unfold keys at hkk
    exact List.map_eq_nil_iff.mp hkk
  · intro s hs
    obtain ⟨⟨n, d⟩, hnd, rfl⟩ := List.mem_map.mp hs
    obtain ⟨p, hp, hpk⟩ := h3 n d hnd
    exact ⟨d, h2.subset hnd, p, hp, hpk⟩

/-- Comparison of the source algorithm with the double-buffered variant:
they fail on the same graphs with the same remaining sub-mapping, and on
success emit the same set of nodes (a permutation of the keys each). -/
theorem sorting_vs_spec {g : Graph} (hg : (keys g).Nodup) :
    (∀ e, topological_sorting g = Except.error e ↔ spec_sort g = Except.error e) ∧
      ∀ o o2, topological_sorting g = Except.ok o → spec_sort g = Except.ok o2 →
        o.Perm o2 := by
  constructor
  · intro e
    constructor
    · intro hts
      have hfe : topoFuel (g.length + 1) g = some (Except.error e) := by
        rw [topoFuel_eq_sorting, hts]
      have hstuck : Stuck g (keys e) := error_keys_stuck (Nat.lt_succ_self _) hfe
      obtain ⟨sp1, sp2⟩ := specFuel_stuck (g.length + 1) g (keys e) hg hstuck
      rcases spec_sort_cases g with ⟨o2, ho2⟩ | ⟨e2, he2⟩
      · exact absurd (by rw [specFuel_eq_spec_sort, ho2]) (sp2 o2)
      · have hfe2 : specFuel (g.length + 1) g = some (Except.error e2) := by
          rw [specFuel_eq_spec_sort, he2]
        have hsub1 : e.Sublist g := (sorting_error_master hts).2.1
        have hsub2 : e2.Sublist g := (specFuel_error _ _ _ (Nat.lt_succ_self _) hfe2).2.1
        have hstuck2 : Stuck g (keys e2) := spec_error_keys_stuck (Nat.lt_succ_self _) hfe2
        obtain ⟨tp1, _⟩ := topoFuel_stuck (g.length + 1) g (keys e2) hg hstuck2
        have hkeq : ∀ k, k ∈ keys e ↔ k ∈ keys e2 :=
          fun k => ⟨fun hk => sp1 e2 hfe2 k hk, fun hk => tp1 e hfe k hk⟩
        rw [sublist_eq_of_keys_eq hg hsub1 hsub2 hkeq]
        exact he2
    · intro hsp
      have hfe2 : specFuel (g.length + 1) g = some (Except.error e) := by
        rw [specFuel_eq_spec_sort, hsp]
      have hstuck : Stuck g (keys e) := spec_error_keys_stuck (Nat.lt_succ_self _) hfe2
      obtain ⟨tp1, tp2⟩ := topoFuel_stuck (g.length + 1) g (keys e) hg hstuck
      rcases sorting_cases g with ⟨o, ho⟩ | ⟨e1, he1⟩
      · exact absurd (by rw [topoFuel_eq_sorting, ho]) (tp2 o)
      · have hfe1 : topoFuel (g.length + 1) g = some (Except.error e1) := by
          rw [topoFuel_eq_sorting, he1]
        have hsub1 : e1.Sublist g := (sorting_error_master he1).2.1
        have hsub2 : e.Sublist g := (specFuel_error _ _ _ (Nat.lt_succ_self _) hfe2).2.1
        have hstuck1 : Stuck g (keys e1) := error_keys_stuck (Nat.lt_succ_self _) hfe1
        obtain ⟨sp1, _⟩ := specFuel_stuck (g.length + 1) g (keys e1) hg hstuck1
        have hkeq : ∀ k, k ∈ keys e1 ↔ k ∈ keys e :=
          fun k => ⟨fun hk => sp1 e hfe2 k hk, fun hk => tp1 e1 hfe1 k hk⟩
        rw [← sublist_eq_of_keys_eq hg hsub1 hsub2 hkeq]
        exact he1
  · intro o o2 ho ho2
    have hp1 : o.Perm (keys g) := (sorting_ok_master hg ho).1
    have hp2 : o2.Perm (keys g) := specFuel_ok_perm (g.length + 1) g o2 (Nat.lt_succ_self _) hg
      (by rw [specFuel_eq_spec_sort, ho2])
    exact hp1.trans hp2.symm

/-- Filtering the mapping can only lose keys. -/
theorem hasKey_filter_false {g : Graph} {q : Nat × List Nat → Bool} {d : Nat}
    (h : hasKey g d = false) : hasKey (g.filter q) d = false := by
  rw [hasKey_eq_false_iff] at h ⊢
  intro hc
  exact h (((List.filter_sublist g).map Prod.fst).subset hc)

/-- A snapshot item none of whose prerequisites is a key of the live
mapping is emitted by the pass: non-key prerequisites never block a
node. -/
theorem passRun_emits_of_nonkey_deps :
    ∀ (items : List (Nat × List Nat)) (g : Graph) (n : Nat) (deps : List Nat),
      (n, deps) ∈ items → (∀ d ∈ deps, hasKey g d = false) →
      n ∈ (passRun items g).2 := by
  intro items
  induction items with
  | nil => intro g n deps h; cases h
  | cons hd rest ih =>
    intro g n deps hmem hdeps
    obtain ⟨m, dm⟩ := hd
    rcases List.mem_cons.mp hmem with heq | hmem'
    · have hm : n = m ∧ deps = dm := Prod.mk.injEq n deps m dm ▸ heq
      obtain ⟨rfl, rfl⟩ := hm
      have hb : (deps.any fun d => hasKey g d) = false := by
        rw [List.any_eq_false]
        intro d hdd
        simp [hdeps d hdd]
      simp only [passRun, hb, Bool.false_eq_true, ite_false]
      exact List.mem_cons_self _ _
    · by_cases hb : dm.any (fun d => hasKey g d)
      · simp only [passRun, hb, if_pos]
        exact ih g n deps hmem' hdeps
      · simp only [passRun, hb, if_neg, Bool.not_eq_true]
        apply List.mem_cons_of_mem
        exact ih (removeKey g m) n deps hmem'
          (fun d hdd => hasKey_filter_false (hdeps d hdd))

/-- Embedding of `deepcopy`: in this value-semantics model a deep copy of
the mapping is the value itself; the copy discipline of the source (the
working copy `graph` is the only thing mutated) is captured by `stFuel`,
which threads the caller's `dep_graph` unchanged. -/
def deepcopy (g : Graph) : Graph := g

/-- State-level embedding of the whole function body: the state consists
of the caller's `dep_graph`, the working mapping `graph` (the deep copy,
the only mapping `del` is applied to) and the accumulator `sorted_nodes`.
Returns the caller's mapping as observable after the call, together with
the result. -/
def stFuel : Nat → Graph → Graph → List Nat → Option (Graph × Except Graph (List Nat))
  | 0, _, _, _ => none
  | f + 1, dep_graph, graph, sorted_nodes =>
    if graph = [] then
      some (dep_graph, Except.ok sorted_nodes)
    else
      let r := passRun (sortItems graph) graph
      if r.2 = [] then
        some (dep_graph, Except.error graph)
      else
        stFuel f dep_graph r.1 (sorted_nodes ++ r.2)

/-- The state-level loop is the pure loop with the caller's mapping
threaded through unchanged. -/
theorem stFuel_eq : ∀ (f : Nat) (c w : Graph) (acc : List Nat),
    stFuel f c w acc =
      (topoFuel f w).map (fun r => (c, r.map (fun out => acc ++ out))) := by
  intro f
  induction f with
  | zero => intro c w acc; rfl
  | succ f ih =>
    intro c w acc
    by_cases hnil : w = []
    · subst hnil
      simp [stFuel, topoFuel, Except.map]
    · simp only [stFuel, topoFuel, hnil, ite_false]
      by_cases hem : (passRun (sortItems w) w).2 = []
      · rw [if_pos hem, if_pos hem]
        rfl
      · rw [if_neg hem, if_neg hem, ih]
        rcases ho : topoFuel f (passRun (sortItems w) w).1 with _ | r
        · rfl
        · cases r with
          | error e => rfl
          | ok rest =>
            simp only [Option.map_some', Except.map]
            rw [List.append_assoc]

theorem stFuel_isSome (f : Nat) (c w : Graph) (acc : List Nat) (h : w.length < f) :
    (stFuel f c w acc).isSome = true := by
  rw [stFuel_eq, Option.isSome_map']
  exact fuel_suffices f w h

/-- The full call as observed by the caller: runs the loop on the deep
copy, starting from an empty `sorted_nodes`, and reports the caller's
mapping as it stands after the call, together with the result. -/
def topological_sorting_run (dep_graph : Graph) : Graph × Except Graph (List Nat) :=
  (stFuel (dep_graph.length + 1) dep_graph (deepcopy dep_graph) []).get
    (stFuel_isSome _ _ _ _ (Nat.lt_succ_self _))

/-- The observable outcome of the call: the caller's mapping is returned
unchanged, and the result is exactly the pure function's result. -/
theorem topological_sorting_run_eq (g : Graph) :
    topological_sorting_run g = (g, topological_sorting g) := by
  have h1 : stFuel (g.length + 1) g (deepcopy g) [] =
      some (g, (topological_sorting g).map (fun out => [] ++ out)) := by
    rw [stFuel_eq]
    unfold deepcopy
    rw [topoFuel_eq_sorting]
    rfl
  have h2 : (topological_sorting g).map (fun out => [] ++ out) = topological_sorting g := by
    cases topological_sorting g with
    | ok out => simp [Except.map]
    | error e => rfl
  rw [h2] at h1
  unfold topological_sorting_run
  rw [Option.get_of_mem _ h1]

/-- Determinism under re-representation of the dict: two mappings with the
same contents give the same order on success, and payloads with the same
contents on failure. -/
theorem sorting_perm {g g2 : Graph} (hg : (keys g).Nodup) (h : g.Perm g2) :
    (∀ out, topological_sorting g = Except.ok out ↔
      topological_sorting g2 = Except.ok out) ∧
      ∀ e e2, topological_sorting g = Except.error e →
        topological_sorting g2 = Except.error e2 → e.Perm e2 := by
  have hlen : g.length = g2.length := h.length_eq
  have h1 := topoFuel_eq_sorting g
  have h2 := topoFuel_eq_sorting g2
  rw [← hlen] at h2
  have hrp := topoFuel_perm (g.length + 1) g g2 hg h
  rw [h1, h2] at hrp
  constructor
  · intro out
    cases hA : topological_sorting g with
    | ok o1 =>
      cases hB : topological_sorting g2 with
      | ok o2 =>
        rw [hA, hB] at hrp
        simp only [resultPerm] at hrp
        subst hrp
        exact Iff.rfl
      | error e2 =>
        rw [hA, hB] at hrp
        exact absurd hrp (by simp [resultPerm])
    | error e1 =>
      cases hB : topological_sorting g2 with
      | ok o2 =>
        rw [hA, hB] at hrp
        exact absurd hrp (by simp [resultPerm])
      | error e2 => simp
  · intro e e2 hA hB
    rw [hA, hB] at hrp
    exact hrp

/-- C1, as stated, is false on the code: a declared prerequisite that is
not a key of the mapping never occurs in the returned sequence at all, so
it cannot occur at an earlier position.  Concretely, for the graph
`{0: [1]}` the function returns `[0]`, and the prerequisite `1` of node
`0` does not occur in the output. -/
theorem C1_counterexample :
    topological_sorting ([(0, [1])] : Graph) = Except.ok [0] ∧
      ¬ (∀ n deps p, (n, deps) ∈ ([(0, [1])] : Graph) → p ∈ deps →
          p ∈ ([0] : List Nat) ∧ List.indexOf p [0] < List.indexOf n [0]) := by
  constructor
  · rfl
  · intro h
    have := h 0 [1] 1 (by simp) (by simp)
    simp at this

/-- C1 (amended): whenever `topological_sorting` returns a sequence, every
declared prerequisite `P` of a node `N` that is itself a key of the graph
occurs at a strictly earlier position than `N` in the returned sequence. -/
theorem C1_amended {g : Graph} {out : List Nat} (hg : (keys g).Nodup)
    (h : topological_sorting g = Except.ok out) :
    ∀ n deps p, (n, deps) ∈ g → p ∈ deps → p ∈ keys g →
      p ∈ out ∧ List.indexOf p out < List.indexOf n out := by
  intro n deps p hnd hp hpk
  obtain ⟨hperm, horder⟩ := sorting_ok_master hg h
  exact ⟨hperm.mem_iff.mpr hpk, horder n deps p hnd hp hpk⟩

theorem C1_amended_witness :
    (keys ([(0, []), (1, [0])] : Graph)).Nodup ∧
      topological_sorting ([(0, []), (1, [0])] : Graph) = Except.ok [0, 1] ∧
      (0 ∈ ([0, 1] : List Nat) ∧ List.indexOf 0 [0, 1] < List.indexOf 1 [0, 1]) :=
  ⟨by decide, rfl,
    @C1_amended ([(0, []), (1, [0])] : Graph) [0, 1] (by decide) rfl
      1 [0] 0 (by simp) (by simp) (by decide)⟩

/-- C2: for every acyclic dependency graph (no prerequisite cycle among
its keys), `topological_sorting` returns a sequence in which every key of
the input mapping appears exactly once (and nothing else appears). -/
theorem C2_acyclic_all_keys_once {g : Graph} (hg : (keys g).Nodup)
    (hac : ¬ hasCycle g) :
    ∃ out, topological_sorting g = Except.ok out ∧
      (∀ k ∈ keys g, out.count k = 1) ∧ ∀ k ∈ out, k ∈ keys g := by
  rcases sorting_cases g with ⟨out, hout⟩ | ⟨e, he⟩
  · obtain ⟨hperm, _⟩ := sorting_ok_master hg hout
    refine ⟨out, hout, ?_, fun k hk => hperm.subset hk⟩
    intro k hk
    rw [hperm.count_eq]
    exact List.count_eq_one_of_mem hg hk
  · exact absurd (sorting_error_hasCycle he) hac

theorem C2_witness :
    (keys ([(0, []), (1, [0])] : Graph)).Nodup ∧
      ¬ hasCycle ([(0, []), (1, [0])] : Graph) ∧
      ∃ out, topological_sorting ([(0, []), (1, [0])] : Graph) = Except.ok out ∧
        (∀ k ∈ keys ([(0, []), (1, [0])] : Graph), out.count k = 1) ∧
        ∀ k ∈ out, k ∈ keys ([(0, []), (1, [0])] : Graph) := by
  have hnd : (keys ([(0, []), (1, [0])] : Graph)).Nodup := by decide
  have hnc : ¬ hasCycle ([(0, []), (1, [0])] : Graph) := by
    intro hc
    obtain ⟨e, he⟩ := (sorting_error_iff_hasCycle hnd).mpr hc
    have hok : topological_sorting ([(0, []), (1, [0])] : Graph) = Except.ok [0, 1] := rfl
    rw [hok] at he
    simp at he
  exact ⟨hnd, hnc, C2_acyclic_all_keys_once hnd hnc⟩

/-- C3: the run raises `CyclicDependenciesError` if and only if the graph
has a cycle among its keys, equivalently iff no valid total order exists;
this is the only failure (the result type admits no other), and it fires
exactly when a full scan of the remaining mapping removes zero nodes (the
pass over the final payload removes nothing and emits nothing). -/
theorem C3_error_iff_cyclic {g : Graph} (hg : (keys g).Nodup) :
    ((∃ e, topological_sorting g = Except.error e) ↔ hasCycle g) ∧
      ((∃ e, topological_sorting g = Except.error e) ↔ ¬ ∃ L, validOrder g L) ∧
      ∀ e, topological_sorting g = Except.error e →
        passRun (sortItems e) e = (e, []) :=
  ⟨sorting_error_iff_hasCycle hg, sorting_error_iff_no_validOrder hg,
    fun e he => stuck_pass e (sorting_error_master he).2.2⟩

theorem C3_witness :
    (keys ([(0, [1]), (1, [0])] : Graph)).Nodup ∧
      (((∃ e, topological_sorting ([(0, [1]), (1, [0])] : Graph) = Except.error e) ↔
          hasCycle ([(0, [1]), (1, [0])] : Graph)) ∧
        ((∃ e, topological_sorting ([(0, [1]), (1, [0])] : Graph) = Except.error e) ↔
          ¬ ∃ L, validOrder ([(0, [1]), (1, [0])] : Graph) L) ∧
        ∀ e, topological_sorting ([(0, [1]), (1, [0])] : Graph) = Except.error e →
          passRun (sortItems e) e = (e, [])) :=
  ⟨by decide, C3_error_iff_cyclic (by decide)⟩

/-- C4, as stated, is false on the code: when the whole graph is cyclic
the payload is the entire mapping, so its key set is NOT a proper subset
of the original keys.  Concretely `{0: [1], 1: [0]}` fails with payload
`{0: [1], 1: [0]}`: no original key is missing from the payload. -/
theorem C4_counterexample :
    topological_sorting ([(0, [1]), (1, [0])] : Graph) =
        Except.error [(0, [1]), (1, [0])] ∧
      ¬ ∃ k ∈ keys ([(0, [1]), (1, [0])] : Graph),
          k ∉ keys ([(0, [1]), (1, [0])] : Graph) :=
  ⟨rfl, by simp⟩

/-- C4 (amended): when the run fails, the payload is the remaining
un-orderable sub-mapping: a non-empty sub-mapping of the original graph
(so its keys are a subset — not necessarily proper — of the original
keys), every one of whose members still has at least one prerequisite
within that same subset. -/
theorem C4_amended {g e : Graph} (h : topological_sorting g = Except.error e) :
    e ≠ [] ∧ e.Sublist g ∧ (∀ k ∈ keys e, k ∈ keys g) ∧
      ∀ n d, (n, d) ∈ e → ∃ p ∈ d, p ∈ keys e := by
  obtain ⟨h1, h2, h3⟩ := sorting_error_master h
  exact ⟨h1, h2, fun k hk => (h2.map Prod.fst).subset hk, h3⟩

theorem C4_amended_witness :
    topological_sorting ([(0, []), (1, [2]), (2, [1])] : Graph) =
        Except.error [(1, [2]), (2, [1])] ∧
      (([(1, [2]), (2, [1])] : Graph) ≠ [] ∧
        ([(1, [2]), (2, [1])] : Graph).Sublist ([(0, []), (1, [2]), (2, [1])] : Graph) ∧
        (∀ k ∈ keys ([(1, [2]), (2, [1])] : Graph),
          k ∈ keys ([(0, []), (1, [2]), (2, [1])] : Graph)) ∧
        ∀ n d, (n, d) ∈ ([(1, [2]), (2, [1])] : Graph) →
          ∃ p ∈ d, p ∈ keys ([(1, [2]), (2, [1])] : Graph)) :=
  ⟨rfl, C4_amended rfl⟩

/-- C5: determinism.  The result depends only on the contents of the
mapping (so two invocations on an identical graph, however represented,
produce identical sequences on success and same-content payloads on
failure), and within a pass simultaneously eligible nodes are emitted in
strictly ascending identifier order (the tie-break). -/
theorem C5_deterministic {g g2 : Graph} (hg : (keys g).Nodup) (h : g.Perm g2) :
    ((∀ out, topological_sorting g = Except.ok out ↔
        topological_sorting g2 = Except.ok out) ∧
      ∀ e e2, topological_sorting g = Except.error e →
        topological_sorting g2 = Except.error e2 → e.Perm e2) ∧
      ((passRun (sortItems g) g).2).Pairwise (· < ·) :=
  ⟨sorting_perm hg h, passRun_snd_ascending g hg⟩

theorem C5_witness :
    (keys ([(1, [0]), (0, [])] : Graph)).Nodup ∧
      ([(1, [0]), (0, [])] : Graph).Perm ([(0, []), (1, [0])] : Graph) ∧
      (((∀ out, topological_sorting ([(1, [0]), (0, [])] : Graph) = Except.ok out ↔
            topological_sorting ([(0, []), (1, [0])] : Graph) = Except.ok out) ∧
          ∀ e e2, topological_sorting ([(1, [0]), (0, [])] : Graph) = Except.error e →
            topological_sorting ([(0, []), (1, [0])] : Graph) = Except.error e2 →
              e.Perm e2) ∧
        ((passRun (sortItems ([(1, [0]), (0, [])] : Graph))
            ([(1, [0]), (0, [])] : Graph)).2).Pairwise (· < ·)) :=
  ⟨by decide, by decide, C5_deterministic (by decide) (by decide)⟩

/-- C6: frame property.  The caller-supplied mapping is observably
unchanged after the call, whether it returns an order or raises; the
function only mutates the deep copy. -/
theorem C6_caller_unchanged (g : Graph) :
    (topological_sorting_run g).1 = g ∧
      (topological_sorting_run g).2 = topological_sorting g := by
  rw [topological_sorting_run_eq]
  exact ⟨rfl, rfl⟩

/-- C7: termination.  On a non-empty mapping, an iteration of the outer
loop either removes no node and raises immediately with the current
mapping, or strictly shrinks the mapping; consequently `length + 1` fuel
always suffices and the computation is a total function of its input. -/
theorem C7_termination {g : Graph} (hne : g ≠ []) :
    ((passRun (sortItems g) g).2 = [] → topological_sorting g = Except.error g) ∧
      ((passRun (sortItems g) g).2 ≠ [] →
        (passRun (sortItems g) g).1.length < g.length) ∧
      (topoFuel (g.length + 1) g).isSome = true := by
  refine ⟨?_, fun hem => passRun_fst_length_lt _ _ (sortItems_hasKey g) hem,
    fuel_suffices _ _ (Nat.lt_succ_self _)⟩
  intro hem
  have hf : topoFuel (g.length + 1) g = some (Except.error g) := by
    simp only [topoFuel, hne, ite_false]
    rw [if_pos hem]
  have h2 := topoFuel_eq_sorting g
  rw [hf] at h2
  injection h2 with h3
  exact h3.symm

theorem C7_witness :
    (([(0, [1]), (1, [0])] : Graph) ≠ [] ∧
      (((passRun (sortItems ([(0, [1]), (1, [0])] : Graph))
            ([(0, [1]), (1, [0])] : Graph)).2 = [] →
          topological_sorting ([(0, [1]), (1, [0])] : Graph) =
            Except.error [(0, [1]), (1, [0])]) ∧
        ((passRun (sortItems ([(0, [1]), (1, [0])] : Graph))
            ([(0, [1]), (1, [0])] : Graph)).2 ≠ [] →
          (passRun (sortItems ([(0, [1]), (1, [0])] : Graph))
            ([(0, [1]), (1, [0])] : Graph)).1.length <
            ([(0, [1]), (1, [0])] : Graph).length) ∧
        (topoFuel (([(0, [1]), (1, [0])] : Graph).length + 1)
          ([(0, [1]), (1, [0])] : Graph)).isSome = true)) :=
  ⟨by simp, C7_termination (by simp)⟩

/-- C8: a declared prerequisite that is not a key never blocks its node:
it never influences any eligibility test (against any sub-mapping of the
graph), and a node all of whose prerequisites are non-keys is emitted
already in the first elimination pass. -/
theorem C8_nonkey_prereqs {g : Graph} {n : Nat} {deps : List Nat}
    (hmem : (n, deps) ∈ g) (hnk : ∀ p ∈ deps, p ∉ keys g) :
    n ∈ (passRun (sortItems g) g).2 ∧
      ∀ p, p ∉ keys g → ∀ cur : Graph, cur.Sublist g → ∀ dd : List Nat,
        ((p :: dd).any fun d => hasKey cur d) = (dd.any fun d => hasKey cur d) := by
  constructor
  · apply passRun_emits_of_nonkey_deps (sortItems g) g n deps (mem_sortItems_of_mem hmem)
    intro d hd
    exact hasKey_eq_false_iff.mpr (hnk d hd)
  · intro p hp cur hcur dd
    have hpc : hasKey cur p = false := by
      rw [hasKey_eq_false_iff]
      intro hc
      exact hp ((hcur.map Prod.fst).subset hc)
    simp [hpc]

theorem C8_witness :
    ((0, [5]) ∈ ([(0, [5])] : Graph) ∧ (∀ p ∈ ([5] : List Nat), p ∉ keys ([(0, [5])] : Graph))) ∧
      (0 ∈ (passRun (sortItems ([(0, [5])] : Graph)) ([(0, [5])] : Graph)).2 ∧
        ∀ p, p ∉ keys ([(0, [5])] : Graph) → ∀ cur : Graph,
          cur.Sublist ([(0, [5])] : Graph) → ∀ dd : List Nat,
            ((p :: dd).any fun d => hasKey cur d) = (dd.any fun d => hasKey cur d)) :=
  ⟨⟨by simp, by decide⟩, @C8_nonkey_prereqs ([(0, [5])] : Graph) 0 [5] (by simp) (by decide)⟩

/-- C9, as stated, is false on the code: the double-buffered variant can
emit in a different order, because the source re-checks eligibility
against the live mapping while iterating the snapshot, so a node freed by
an earlier removal in the same pass is emitted in that same pass.  On
`{0: [], 1: [0], 2: []}` the source returns `[0, 1, 2]` while the
double-buffered variant returns `[0, 2, 1]`. -/
theorem C9_counterexample :
    topological_sorting ([(0, []), (1, [0]), (2, [])] : Graph) = Except.ok [0, 1, 2] ∧
      spec_sort ([(0, []), (1, [0]), (2, [])] : Graph) = Except.ok [0, 2, 1] ∧
      ([0, 1, 2] : List Nat) ≠ [0, 2, 1] :=
  ⟨rfl, rfl, by decide⟩

/-- C9 (amended): the double-buffered variant is equivalent to the source
up to within-pass order: both fail on exactly the same graphs with
exactly the same remainder, and on success their sequences are
permutations of each other (the same set of emitted nodes); the output
sequences themselves may differ. -/
theorem C9_amended {g : Graph} (hg : (keys g).Nodup) :
    (∀ e, topological_sorting g = Except.error e ↔ spec_sort g = Except.error e) ∧
      ∀ o o2, topological_sorting g = Except.ok o → spec_sort g = Except.ok o2 →
        o.Perm o2 :=
  sorting_vs_spec hg

theorem C9_amended_witness :
    (keys ([(0, []), (1, [0]), (2, [])] : Graph)).Nodup ∧
      ((∀ e, topological_sorting ([(0, []), (1, [0]), (2, [])] : Graph) = Except.error e ↔
          spec_sort ([(0, []), (1, [0]), (2, [])] : Graph) = Except.error e) ∧
        ∀ o o2, topological_sorting ([(0, []), (1, [0]), (2, [])] : Graph) = Except.ok o →
          spec_sort ([(0, []), (1, [0]), (2, [])] : Graph) = Except.ok o2 → o.Perm o2) :=
  ⟨by decide, C9_amended (by decide)⟩

/-- C10: every element of a returned sequence is a key of the input
mapping: non-key prerequisites and foreign identifiers never appear. -/
theorem C10_output_subset_keys {g : Graph} {out : List Nat} (hg : (keys g).Nodup)
    (h : topological_sorting g = Except.ok out) : ∀ x ∈ out, x ∈ keys g := by
  intro x hx
  exact ((sorting_ok_master hg h).1).subset hx

theorem C10_witness :
    (keys ([(0, [7])] : Graph)).Nodup ∧
      topological_sorting ([(0, [7])] : Graph) = Except.ok [0] ∧
      ∀ x ∈ ([0] : List Nat), x ∈ keys ([(0, [7])] : Graph) :=
  ⟨by decide, rfl, @C10_output_subset_keys ([(0, [7])] : Graph) [0] (by decide) rfl⟩

end FuelUtils
